import Mathlib

/-!
Verification of the fault-injection driver (`fuzzy_driver.rs`) of the
scupt-fuzzy crate.

The driver is shallowly embedded as pure state-transition functions over
`FuzzyState`.  Machine arithmetic: the sequence counter is an `AtomicU64`
whose `fetch_add` wraps at `2 ^ 64`; it is modelled as a `Nat` reduced
modulo `U64` at each increment.  Timed waits and concurrency are modelled
by making each operation also return the ordered list of observable
`Step`s it performs (sleeps, connectivity checks, log appends, transport
sends, task spawns); a scheduled unit's execution is one `schedule` call.
-/

/-- Node identifier (`NID` from scupt-util, a machine integer). -/
abbrev NID := Nat

/-- Modelled from the spec: `Message<String>` from scupt-util is not under
`src/`; per the spec (§6) an outbound message carries
`(source_node_id, dest_node_id, string_payload)`. -/
structure Message where
  source : NID
  dest : NID
  payload : String
deriving DecidableEq

/-- Modelled from the spec: `FuzzyEvent` (`fuzzy_event.rs`) is not under
`src/`; the constructors and payload shapes are those matched by
`FuzzyInner::schedule` and listed in the spec's data model (§3). -/
inductive FuzzyEvent where
  | Delay (ms : Nat) (message : Message)
  | Duplicate (vec : List Nat) (message : Message)
  | Lost
  | Restart (ms : Nat) (message : Message)
  | Crash (message : Message)
  | PartitionStart (ids1 ids2 : List NID)
  | PartitionRecovery (ms : Nat) (ids1 ids2 : List NID)
deriving DecidableEq

/-- Modelled from the spec: `FuzzyCommand` (`fuzzy_command.rs`) is not under
`src/`; per the spec (§6) it has the single variant `MessageReq`. -/
inductive FuzzyCommand where
  | MessageReq (m : Message)
deriving DecidableEq

/-- The error type (`ET` from scupt-util) restricted to the variants the
driver uses: `EOF` is the distinguished end-of-input signal raised by
`incoming_command`; `RecvError` stands for a transport receive failure. -/
inductive ET where
  | EOF
  | RecvError
deriving DecidableEq

/-- One observable step of the driver or of a scheduling unit. -/
inductive Step where
  | append_action (id : Nat) (event : FuzzyEvent)
  | spawn_unit (id : Nat) (event : FuzzyEvent)
  | sleep (ms : Nat)
  | check (message : Message) (ok : Bool)
  | append_delivery (id action_id : Nat)
  | transport (message : Message)
deriving DecidableEq

/-- `2 ^ 64`, the wrap-around modulus of the `AtomicU64` sequence. -/
def U64 : Nat := 2 ^ 64

/-- Combined state of `FuzzyDriver` and `FuzzyInner`: the disconnected
ordered pairs (`dis_connect`), the `AtomicU64` counter
(`atomic_sequence`), the sqlite `action` and `delivery` tables as ordered
row lists, the messages handed to the transport sender (`sent`), and the
scheduling units spawned but modelled as not yet run (`pending`).
`ids` is the trace of every value `gen_id` has returned, in call order. -/
structure FuzzyState where
  dis_connect : Finset (NID × NID)
  atomic_sequence : Nat
  ids : List Nat
  actions : List (Nat × FuzzyEvent)
  deliveries : List (Nat × Nat)
  sent : List Message
  pending : List (Nat × FuzzyEvent)
deriving DecidableEq

/-- The state of a fresh `FuzzyDriver::new`: empty disconnected set,
`AtomicU64::new(0)`, empty tables. -/
def init : FuzzyState :=
  { dis_connect := ∅
    atomic_sequence := 0
    ids := []
    actions := []
    deliveries := []
    sent := []
    pending := [] }

/-- `FuzzyInner::gen_id`: `atomic_sequence.fetch_add(1, SeqCst)` returns the
old value and stores the incremented value, wrapping at `2 ^ 64`. -/
def gen_id (s : FuzzyState) : Nat × FuzzyState :=
  let id := s.atomic_sequence
  (id, { s with
          atomic_sequence := (s.atomic_sequence + 1) % U64
          ids := s.ids ++ [id] })

/-- `FuzzyInner::can_connect`: `!self.dis_connect.contains(&(id1, id2))`. -/
def can_connect (s : FuzzyState) (id1 id2 : NID) : Bool :=
  decide ((id1, id2) ∉ s.dis_connect)

/-- `FuzzyInner::partition_start`: for each `i` in `ids1` and `j` in `ids2`
with `i ≠ j`, insert `(i, j)` into `dis_connect`. -/
def partition_start (s : FuzzyState) (ids1 ids2 : List NID) : FuzzyState :=
  { s with dis_connect :=
      ids1.foldl (fun acc i =>
        ids2.foldl (fun acc2 j =>
          if i ≠ j then insert (i, j) acc2 else acc2) acc) s.dis_connect }

/-- `FuzzyInner::partition_end`: for each `i` in `ids1` and `j` in `ids2`,
remove `(i, j)` from `dis_connect`. -/
def partition_end (s : FuzzyState) (ids1 ids2 : List NID) : FuzzyState :=
  { s with dis_connect :=
      ids1.foldl (fun acc i =>
        ids2.foldl (fun acc2 j => Finset.erase acc2 (i, j)) acc) s.dis_connect }

/-- `FuzzyInner::store_message_delivery`: draw a fresh id from `gen_id` and
insert the row `(id, action_id)` into the `delivery` table. -/
def store_message_delivery (s : FuzzyState) (action_id : Nat) : FuzzyState :=
  let (id, s1) := gen_id s
  { s1 with deliveries := s1.deliveries ++ [(id, action_id)] }

/-- `FuzzyInner::send`: if `can_connect(source, dest)` fails, return `Ok`
with no effect; otherwise `store_message_delivery(action_id)` and then hand
the message to the transport sender. -/
def send (s : FuzzyState) (id : Nat) (message : Message) : FuzzyState × List Step :=
  if !can_connect s message.source message.dest then
    (s, [Step.check message false])
  else
    let s1 := store_message_delivery s id
    ({ s1 with sent := s1.sent ++ [message] },
     [Step.check message true,
      Step.append_delivery (gen_id s).1 id,
      Step.transport message])

/-- The `Duplicate` arm of `FuzzyInner::schedule`: for each `ms` in `vec`,
in list order, sleep `ms` milliseconds and then `send` the message. -/
def duplicate_loop (s : FuzzyState) (id : Nat) (message : Message) :
    List Nat → FuzzyState × List Step
  | [] => (s, [])
  | ms :: rest =>
    let (s1, tr) := send s id message
    let (s2, tr2) := duplicate_loop s1 id message rest
    (s2, (Step.sleep ms :: tr) ++ tr2)

/-- `FuzzyInner::schedule`: execute one `(action_id, event)` scheduling
unit. -/
def schedule (s : FuzzyState) (id : Nat) (event : FuzzyEvent) :
    FuzzyState × List Step :=
  match event with
  | .Delay ms message =>
    let pre : List Step := if ms > 0 then [Step.sleep ms] else []
    let (s1, tr) := send s id message
    (s1, pre ++ tr)
  | .Duplicate vec message => duplicate_loop s id message vec
  | .Lost => (s, [])
  | .Restart ms message =>
    let (s1, tr) := send s id message
    (s1, Step.sleep ms :: tr)
  | .Crash message => send s id message
  | .PartitionStart ids1 ids2 => (partition_start s ids1 ids2, [])
  | .PartitionRecovery ms ids1 ids2 => (partition_end s ids1 ids2, [Step.sleep ms])

/-- `FuzzyDriver::store_event_message`: insert the row `(id, event)` into
the `action` table in its own transaction. -/
def store_event_message (s : FuzzyState) (id : Nat) (event : FuzzyEvent) :
    FuzzyState :=
  { s with actions := s.actions ++ [(id, event)] }

/-- `FuzzyDriver::schedule_fuzzy_event`.  Modelled from the spec:
`spawn_local_task` (scupt-net, not under `src/`) spawns the unit as an
independently-executing task and returns immediately without awaiting it
(spec §4.1, §9 "fire and forget"); the spawned unit is recorded as
pending, its execution being a later `schedule` call. -/
def schedule_fuzzy_event (s : FuzzyState) (id : Nat) (event : FuzzyEvent) :
    FuzzyState :=
  { s with pending := s.pending ++ [(id, event)] }

/-- `FuzzyDriver::fuzzy_event_for_message`: persist the Action record, then
spawn the scheduling unit. -/
def fuzzy_event_for_message (s : FuzzyState) (id : Nat) (event : FuzzyEvent) :
    FuzzyState × List Step :=
  let s1 := store_event_message s id event
  let s2 := schedule_fuzzy_event s1 id event
  (s2, [Step.append_action id event, Step.spawn_unit id event])

/-- The event loop inside `FuzzyDriver::incoming_command`: for each event
produced by the generator, in order, allocate an id with `gen_id` and run
`fuzzy_event_for_message`. -/
def process_events (s : FuzzyState) : List FuzzyEvent → FuzzyState × List Step
  | [] => (s, [])
  | event :: rest =>
    let (id, s1) := gen_id s
    let (s2, tr) := fuzzy_event_for_message s1 id event
    let (s3, tr2) := process_events s2 rest
    (s3, tr ++ tr2)

/-- `FuzzyDriver::incoming_command`: match the command, ask the external
decision generator (`EventGen::fuzz_message`, abstracted as `gen` threading
an entropy state `σ`) for the event list and continuation flag, process
every event, and only then return `Err(ET::EOF)` when the flag is false. -/
def incoming_command {σ : Type} (gen : σ → Message → List FuzzyEvent × Bool × σ)
    (s : FuzzyState) (u : σ) (command : FuzzyCommand) :
    FuzzyState × σ × List Step × Except ET Unit :=
  match command with
  | .MessageReq m =>
    let (vec, cont, u1) := gen u m
    let (s1, tr) := process_events s vec
    (s1, u1, tr, if cont then Except.ok () else Except.error ET.EOF)

/-- `FuzzyDriver::message_loop`: receive commands one at a time and run
`incoming_command`, propagating its error (`?`) which ends the loop.  The
inbound channel is modelled as the list of commands it will yield; an
exhausted list is a failing receive.  The returned `Nat` counts the
receives attempted. -/
def message_loop {σ : Type} (gen : σ → Message → List FuzzyEvent × Bool × σ) :
    FuzzyState → σ → List FuzzyCommand → FuzzyState × Nat × Except ET Unit
  | s, _, [] => (s, 1, Except.error ET.RecvError)
  | s, u, command :: rest =>
    match incoming_command gen s u command with
    | (s1, u1, _, Except.ok ()) =>
      let (s2, n, r) := message_loop gen s1 u1 rest
      (s2, n + 1, r)
    | (s1, _, _, Except.error e) => (s1, 1, Except.error e)

/-- One top-level driver operation: an ingestion of one command's generated
event list (the id-allocating loop of `incoming_command`), or the execution
of one spawned scheduling unit. -/
inductive DriverOp where
  | ingest (events : List FuzzyEvent)
  | run_unit (id : Nat) (event : FuzzyEvent)

/-- Apply one driver operation to the state. -/
def apply_op (s : FuzzyState) : DriverOp → FuzzyState
  | .ingest events => (process_events s events).1
  | .run_unit id event => (schedule s id event).1

/-- Run a sequence of driver operations. -/
def run_ops (s : FuzzyState) (ops : List DriverOp) : FuzzyState :=
  ops.foldl apply_op s

/-- A sqlite persistence failure.  In the source every store call chains
`.unwrap()` on `open`/`transaction`/`execute`/`commit`, so a failure
aborts the calling operation by panicking; the abort is modelled as this
escalated error. -/
inductive PersistError where
  | writeFailed
deriving DecidableEq

/-- `FuzzyDriver::store_event_message` with the sqlite outcome explicit:
`dbOk` tells whether the open/transaction/execute/commit chain succeeds;
on failure the `.unwrap()` aborts the operation. -/
def store_event_message_db (dbOk : Bool) (s : FuzzyState) (id : Nat)
    (event : FuzzyEvent) : Except PersistError FuzzyState :=
  if dbOk then Except.ok (store_event_message s id event)
  else Except.error PersistError.writeFailed

/-- `FuzzyDriver::fuzzy_event_for_message` over the fallible store: the
Action append must succeed before the unit is spawned. -/
def fuzzy_event_for_message_db (dbOk : Bool) (s : FuzzyState) (id : Nat)
    (event : FuzzyEvent) : Except PersistError (FuzzyState × List Step) := do
  let s1 ← store_event_message_db dbOk s id event
  let s2 := schedule_fuzzy_event s1 id event
  Except.ok (s2, [Step.append_action id event, Step.spawn_unit id event])

/-- `FuzzyInner::store_message_delivery` with the sqlite outcome explicit. -/
def store_message_delivery_db (dbOk : Bool) (s : FuzzyState) (action_id : Nat) :
    Except PersistError FuzzyState :=
  if dbOk then Except.ok (store_message_delivery s action_id)
  else Except.error PersistError.writeFailed

/-- `FuzzyInner::send` over the fallible store: the Delivery append must
succeed before the transport send happens. -/
def send_db (dbOk : Bool) (s : FuzzyState) (id : Nat) (message : Message) :
    Except PersistError (FuzzyState × List Step) :=
  if !can_connect s message.source message.dest then
    Except.ok (s, [Step.check message false])
  else do
    let s1 ← store_message_delivery_db dbOk s id
    Except.ok ({ s1 with sent := s1.sent ++ [message] },
      [Step.check message true,
       Step.append_delivery (gen_id s).1 id,
       Step.transport message])

/-! ### Characterization of the partition folds -/

lemma mem_start_inner (i : NID) (g2 : List NID) (acc : Finset (NID × NID))
    (p : NID × NID) :
    p ∈ g2.foldl (fun acc2 j => if i ≠ j then insert (i, j) acc2 else acc2) acc ↔
      p ∈ acc ∨ ∃ j, j ∈ g2 ∧ i ≠ j ∧ p = (i, j) := by
  induction g2 generalizing acc with
  | nil => simp
  | cons j rest ih =>
    simp only [List.foldl_cons, ih, List.mem_cons]
    by_cases hij : i = j
    · subst hij
      simp only [ne_eq, not_true_eq_false, if_false]
      constructor
      · rintro (h | ⟨k, hk, hik, rfl⟩)
        · exact Or.inl h
        · exact Or.inr ⟨k, Or.inr hk, hik, rfl⟩
      · rintro (h | ⟨k, (rfl | hk), hik, rfl⟩)
        · exact Or.inl h
        · exact absurd rfl hik
        · exact Or.inr ⟨k, hk, hik, rfl⟩
    · simp only [ne_eq, hij, not_false_eq_true, if_true, Finset.mem_insert]
      constructor
      · rintro (h | ⟨k, hk, hik, rfl⟩)
        · rcases h with h | h
          · exact Or.inr ⟨j, Or.inl rfl, hij, h⟩
          · exact Or.inl h
        · exact Or.inr ⟨k, Or.inr hk, hik, rfl⟩
      · rintro (h | ⟨k, (rfl | hk), hik, rfl⟩)
        · exact Or.inl (Or.inr h)
        · exact Or.inl (Or.inl rfl)
        · exact Or.inr ⟨k, hk, hik, rfl⟩

lemma mem_start_outer (g1 g2 : List NID) (acc : Finset (NID × NID))
    (p : NID × NID) :
    p ∈ g1.foldl (fun a i => g2.foldl
        (fun acc2 j => if i ≠ j then insert (i, j) acc2 else acc2) a) acc ↔
      p ∈ acc ∨ ∃ i, i ∈ g1 ∧ ∃ j, j ∈ g2 ∧ i ≠ j ∧ p = (i, j) := by
  induction g1 generalizing acc with
  | nil => simp
  | cons i rest ih =>
    simp only [List.foldl_cons, ih, mem_start_inner, List.mem_cons]
    constructor
    · rintro (⟨h | ⟨j, hj, hij, rfl⟩⟩ | ⟨k, hk, j, hj, hkj, rfl⟩)
      · exact Or.inl h
      · exact Or.inr ⟨i, Or.inl rfl, j, hj, hij, rfl⟩
      · exact Or.inr ⟨k, Or.inr hk, j, hj, hkj, rfl⟩
    · rintro (h | ⟨k, (rfl | hk), j, hj, hkj, rfl⟩)
      · exact Or.inl (Or.inl h)
      · exact Or.inl (Or.inr ⟨j, hj, hkj, rfl⟩)
      · exact Or.inr ⟨k, hk, j, hj, hkj, rfl⟩

lemma mem_partition_start (s : FuzzyState) (g1 g2 : List NID) (p : NID × NID) :
    p ∈ (partition_start s g1 g2).dis_connect ↔
      p ∈ s.dis_connect ∨ (p.1 ∈ g1 ∧ p.2 ∈ g2 ∧ p.1 ≠ p.2) := by
  obtain ⟨a, b⟩ := p
  show _ ∈ List.foldl _ _ _ ↔ _
  rw [mem_start_outer]
  constructor
  · rintro (h | ⟨i, hi, j, hj, hij, h⟩)
    · exact Or.inl h
    · cases h
      exact Or.inr ⟨hi, hj, hij⟩
  · rintro (h | ⟨ha, hb, hab⟩)
    · exact Or.inl h
    · exact Or.inr ⟨a, ha, b, hb, hab, rfl⟩

lemma mem_end_inner (i : NID) (g2 : List NID) (acc : Finset (NID × NID))
    (p : NID × NID) :
    p ∈ g2.foldl (fun acc2 j => Finset.erase acc2 (i, j)) acc ↔
      p ∈ acc ∧ ∀ j, j ∈ g2 → p ≠ (i, j) := by
  induction g2 generalizing acc with
  | nil => simp
  | cons j rest ih =>
    simp only [List.foldl_cons, ih, Finset.mem_erase, List.mem_cons]
    constructor
    · rintro ⟨⟨hne, hmem⟩, hall⟩
      refine ⟨hmem, ?_⟩
      rintro k (rfl | hk)
      · exact hne
      · exact hall k hk
    · rintro ⟨hmem, hall⟩
      exact ⟨⟨hall j (Or.inl rfl), hmem⟩, fun k hk => hall k (Or.inr hk)⟩

lemma mem_end_outer (g1 g2 : List NID) (acc : Finset (NID × NID))
    (p : NID × NID) :
    p ∈ g1.foldl (fun a i => g2.foldl
        (fun acc2 j => Finset.erase acc2 (i, j)) a) acc ↔
      p ∈ acc ∧ ∀ i, i ∈ g1 → ∀ j, j ∈ g2 → p ≠ (i, j) := by
  induction g1 generalizing acc with
  | nil => simp
  | cons i rest ih =>
    simp only [List.foldl_cons, ih, mem_end_inner, List.mem_cons]
    constructor
    · rintro ⟨⟨hmem, hinner⟩, hall⟩
      refine ⟨hmem, ?_⟩
      rintro k (rfl | hk) j hj
      · exact hinner j hj
      · exact hall k hk j hj
    · rintro ⟨hmem, hall⟩
      exact ⟨⟨hmem, fun j hj => hall i (Or.inl rfl) j hj⟩,
        fun k hk j hj => hall k (Or.inr hk) j hj⟩

lemma mem_partition_end (s : FuzzyState) (g1 g2 : List NID) (p : NID × NID) :
    p ∈ (partition_end s g1 g2).dis_connect ↔
      p ∈ s.dis_connect ∧ ¬(p.1 ∈ g1 ∧ p.2 ∈ g2) := by
  obtain ⟨a, b⟩ := p
  show _ ∈ List.foldl _ _ _ ↔ _
  rw [mem_end_outer]
  constructor
  · rintro ⟨hmem, hall⟩
    refine ⟨hmem, ?_⟩
    rintro ⟨ha, hb⟩
    exact hall a ha b hb rfl
  · rintro ⟨hmem, hno⟩
    refine ⟨hmem, ?_⟩
    rintro i hi j hj h
    cases h
    exact hno ⟨hi, hj⟩

/-! ### Normal forms and field effects of the state operations -/

lemma gen_id_eq (s : FuzzyState) :
    gen_id s = (s.atomic_sequence,
      { s with atomic_sequence := (s.atomic_sequence + 1) % U64
               ids := s.ids ++ [s.atomic_sequence] }) := rfl

lemma store_message_delivery_eq (s : FuzzyState) (a : Nat) :
    store_message_delivery s a =
      { s with atomic_sequence := (s.atomic_sequence + 1) % U64
               ids := s.ids ++ [s.atomic_sequence]
               deliveries := s.deliveries ++ [(s.atomic_sequence, a)] } := rfl

lemma send_eq_blocked (s : FuzzyState) (a : Nat) (m : Message)
    (h : can_connect s m.source m.dest = false) :
    send s a m = (s, [Step.check m false]) := by
  simp [send, h]

lemma send_eq_ok (s : FuzzyState) (a : Nat) (m : Message)
    (h : can_connect s m.source m.dest = true) :
    send s a m =
      ({ s with atomic_sequence := (s.atomic_sequence + 1) % U64
                ids := s.ids ++ [s.atomic_sequence]
                deliveries := s.deliveries ++ [(s.atomic_sequence, a)]
                sent := s.sent ++ [m] },
       [Step.check m true,
        Step.append_delivery s.atomic_sequence a,
        Step.transport m]) := by
  simp [send, h, store_message_delivery_eq, gen_id_eq]

lemma send_dis_connect (s : FuzzyState) (a : Nat) (m : Message) :
    (send s a m).1.dis_connect = s.dis_connect := by
  by_cases h : can_connect s m.source m.dest = true
  · rw [send_eq_ok s a m h]
  · rw [send_eq_blocked s a m (by simpa using h)]

lemma send_can_connect (s : FuzzyState) (a : Nat) (m : Message) (x y : NID) :
    can_connect (send s a m).1 x y = can_connect s x y := by
  unfold can_connect
  rw [send_dis_connect]

lemma fuzzy_event_for_message_eq (s : FuzzyState) (id : Nat) (event : FuzzyEvent) :
    fuzzy_event_for_message s id event =
      ({ s with actions := s.actions ++ [(id, event)]
                pending := s.pending ++ [(id, event)] },
       [Step.append_action id event, Step.spawn_unit id event]) := rfl

lemma partition_start_atomic_sequence (s : FuzzyState) (g1 g2 : List NID) :
    (partition_start s g1 g2).atomic_sequence = s.atomic_sequence := rfl

lemma partition_start_ids (s : FuzzyState) (g1 g2 : List NID) :
    (partition_start s g1 g2).ids = s.ids := rfl

lemma partition_end_atomic_sequence (s : FuzzyState) (g1 g2 : List NID) :
    (partition_end s g1 g2).atomic_sequence = s.atomic_sequence := rfl

lemma partition_end_ids (s : FuzzyState) (g1 g2 : List NID) :
    (partition_end s g1 g2).ids = s.ids := rfl

/-! ### The sequence invariant: ids returned by `gen_id` form `range n` -/

/-- Invariant tying the `AtomicU64` counter to the trace of ids it has
handed out: the counter equals the number of calls modulo `2 ^ 64`, and
while no wrap-around has occurred the ids are exactly `0, 1, 2, …`. -/
def SeqInv (s : FuzzyState) : Prop :=
  s.atomic_sequence = s.ids.length % U64 ∧
  (s.ids.length ≤ U64 → s.ids = List.range s.ids.length)

lemma SeqInv_init : SeqInv init := by
  constructor <;> simp [init]

lemma SeqInv_same {s t : FuzzyState}
    (hc : t.atomic_sequence = s.atomic_sequence) (hi : t.ids = s.ids)
    (h : SeqInv s) : SeqInv t := by
  rw [SeqInv, hc, hi]
  exact h

lemma SeqInv_bump {s t : FuzzyState}
    (hc : t.atomic_sequence = (s.atomic_sequence + 1) % U64)
    (hi : t.ids = s.ids ++ [s.atomic_sequence])
    (h : SeqInv s) : SeqInv t := by
  obtain ⟨h1, h2⟩ := h
  have hU : (U64 : Nat) = 18446744073709551616 := by norm_num [U64]
  have hlen_eq : t.ids.length = s.ids.length + 1 := by rw [hi]; simp
  constructor
  · rw [hc, h1, hlen_eq, hU]
    omega
  · intro hlen
    rw [hlen_eq] at hlen
    have hlt : s.ids.length < U64 := by omega
    have hseq : s.atomic_sequence = s.ids.length := by
      rw [h1, Nat.mod_eq_of_lt hlt]
    have hids := h2 (Nat.le_of_lt hlt)
    have ht : t.ids = List.range (s.ids.length + 1) := by
      rw [hi, hseq, List.range_succ]
      exact congrArg (· ++ [s.ids.length]) hids
    rw [ht]
    simp [List.length_range]

lemma SeqInv_gen_id {s : FuzzyState} (h : SeqInv s) : SeqInv (gen_id s).2 :=
  SeqInv_bump (by rw [gen_id_eq]) (by rw [gen_id_eq]) h

lemma SeqInv_send {s : FuzzyState} (a : Nat) (m : Message) (h : SeqInv s) :
    SeqInv (send s a m).1 := by
  by_cases hc : can_connect s m.source m.dest = true
  · rw [send_eq_ok s a m hc]
    exact SeqInv_bump rfl rfl h
  · rw [send_eq_blocked s a m (by simpa using hc)]
    exact h

lemma SeqInv_duplicate_loop {s : FuzzyState} (a : Nat) (m : Message)
    (vec : List Nat) (h : SeqInv s) : SeqInv (duplicate_loop s a m vec).1 := by
  induction vec generalizing s with
  | nil => exact h
  | cons ms rest ih =>
    simp only [duplicate_loop]
    exact ih (SeqInv_send a m h)

lemma SeqInv_schedule {s : FuzzyState} (a : Nat) (event : FuzzyEvent)
    (h : SeqInv s) : SeqInv (schedule s a event).1 := by
  cases event with
  | Delay ms m => exact SeqInv_send a m h
  | Duplicate vec m => exact SeqInv_duplicate_loop a m vec h
  | Lost => exact h
  | Restart ms m => exact SeqInv_send a m h
  | Crash m => exact SeqInv_send a m h
  | PartitionStart g1 g2 => exact SeqInv_same rfl rfl h
  | PartitionRecovery ms g1 g2 => exact SeqInv_same rfl rfl h

lemma SeqInv_process_events {s : FuzzyState} (events : List FuzzyEvent)
    (h : SeqInv s) : SeqInv (process_events s events).1 := by
  induction events generalizing s with
  | nil => exact h
  | cons e rest ih =>
    simp only [process_events, fuzzy_event_for_message_eq]
    exact ih (SeqInv_same rfl rfl (SeqInv_gen_id h))

lemma SeqInv_apply_op {s : FuzzyState} (op : DriverOp) (h : SeqInv s) :
    SeqInv (apply_op s op) := by
  cases op with
  | ingest events => exact SeqInv_process_events events h
  | run_unit id event => exact SeqInv_schedule id event h

lemma SeqInv_run_ops {s : FuzzyState} (ops : List DriverOp) (h : SeqInv s) :
    SeqInv (run_ops s ops) := by
  induction ops generalizing s with
  | nil => exact h
  | cons op rest ih => exact ih (SeqInv_apply_op op h)

lemma can_connect_eq_true {s : FuzzyState} {x y : NID} :
    can_connect s x y = true ↔ (x, y) ∉ s.dis_connect := by
  simp [can_connect]

/-- C1: starting from a fresh `FuzzyDriver`, over any sequence of driver
operations (ingestions allocating action ids and scheduled units
allocating delivery ids, in any combination), the values returned by the
shared `gen_id` counter are exactly `0, 1, 2, …` in call order — the
first id is `0`, no two calls return the same value, and every later call
returns a strictly larger value — as long as the run stays within the
`u64` wrap-around bound. -/
theorem sequence_ids_unique_increasing (ops : List DriverOp)
    (h : (run_ops init ops).ids.length ≤ U64) :
    (run_ops init ops).ids = List.range (run_ops init ops).ids.length ∧
    List.Pairwise (· < ·) (run_ops init ops).ids ∧
    ((run_ops init ops).ids ≠ [] → (run_ops init ops).ids.head? = some 0) := by
  have hinv := SeqInv_run_ops ops SeqInv_init
  have hid := hinv.2 h
  refine ⟨hid, ?_, ?_⟩
  · rw [hid]
    exact List.pairwise_lt_range _
  · intro hne
    have hlen : (run_ops init ops).ids.length ≠ 0 := by
      intro h0
      exact hne (List.length_eq_zero.mp h0)
    obtain ⟨n, hn⟩ := Nat.exists_eq_succ_of_ne_zero hlen
    rw [hid, hn, List.range_succ_eq_map]
    rfl

/-- Witness for C1 at a concrete run mixing an ingestion (action ids 0, 1)
with a scheduled unit performing a delivery (delivery id 2). -/
theorem sequence_ids_unique_increasing_witness :
    (run_ops init [DriverOp.ingest [FuzzyEvent.Lost, FuzzyEvent.Delay 0 ⟨1, 2, "x"⟩],
        DriverOp.run_unit 1 (FuzzyEvent.Delay 0 ⟨1, 2, "x"⟩)]).ids = [0, 1, 2] ∧
    (List.Pairwise (· < ·)
      (run_ops init [DriverOp.ingest [FuzzyEvent.Lost, FuzzyEvent.Delay 0 ⟨1, 2, "x"⟩],
        DriverOp.run_unit 1 (FuzzyEvent.Delay 0 ⟨1, 2, "x"⟩)]).ids ∧
    ((run_ops init [DriverOp.ingest [FuzzyEvent.Lost, FuzzyEvent.Delay 0 ⟨1, 2, "x"⟩],
        DriverOp.run_unit 1 (FuzzyEvent.Delay 0 ⟨1, 2, "x"⟩)]).ids ≠ [] →
      (run_ops init [DriverOp.ingest [FuzzyEvent.Lost, FuzzyEvent.Delay 0 ⟨1, 2, "x"⟩],
        DriverOp.run_unit 1 (FuzzyEvent.Delay 0 ⟨1, 2, "x"⟩)]).ids.head? = some 0)) :=
  ⟨by decide,
   (sequence_ids_unique_increasing
      [DriverOp.ingest [FuzzyEvent.Lost, FuzzyEvent.Delay 0 ⟨1, 2, "x"⟩],
       DriverOp.run_unit 1 (FuzzyEvent.Delay 0 ⟨1, 2, "x"⟩)] (by decide)).2⟩

/-! ### The self-pair invariant for C10 -/

/-- No node is ever marked as disconnected from itself. -/
def DisInv (s : FuzzyState) : Prop := ∀ n : NID, (n, n) ∉ s.dis_connect

lemma DisInv_init : DisInv init := by
  intro n
  simp [init]

lemma DisInv_partition_start {s : FuzzyState} (g1 g2 : List NID)
    (h : DisInv s) : DisInv (partition_start s g1 g2) := by
  intro n hmem
  rw [mem_partition_start] at hmem
  rcases hmem with hmem | ⟨_, _, hne⟩
  · exact h n hmem
  · exact hne rfl

lemma DisInv_partition_end {s : FuzzyState} (g1 g2 : List NID)
    (h : DisInv s) : DisInv (partition_end s g1 g2) := by
  intro n hmem
  rw [mem_partition_end] at hmem
  exact h n hmem.1

lemma duplicate_loop_dis_connect (s : FuzzyState) (a : Nat) (m : Message)
    (vec : List Nat) :
    (duplicate_loop s a m vec).1.dis_connect = s.dis_connect := by
  induction vec generalizing s with
  | nil => rfl
  | cons ms rest ih =>
    simp only [duplicate_loop]
    rw [ih, send_dis_connect]

lemma DisInv_schedule {s : FuzzyState} (a : Nat) (event : FuzzyEvent)
    (h : DisInv s) : DisInv (schedule s a event).1 := by
  cases event with
  | Delay ms m => intro n; rw [show (schedule s a (.Delay ms m)).1 = (send s a m).1 from rfl, send_dis_connect]; exact h n
  | Duplicate vec m => intro n; rw [show (schedule s a (.Duplicate vec m)).1 = (duplicate_loop s a m vec).1 from rfl, duplicate_loop_dis_connect]; exact h n
  | Lost => exact h
  | Restart ms m => intro n; rw [show (schedule s a (.Restart ms m)).1 = (send s a m).1 from rfl, send_dis_connect]; exact h n
  | Crash m => intro n; rw [show (schedule s a (.Crash m)).1 = (send s a m).1 from rfl, send_dis_connect]; exact h n
  | PartitionStart g1 g2 => exact DisInv_partition_start g1 g2 h
  | PartitionRecovery ms g1 g2 => exact DisInv_partition_end g1 g2 h

lemma process_events_dis_connect (s : FuzzyState) (events : List FuzzyEvent) :
    (process_events s events).1.dis_connect = s.dis_connect := by
  induction events generalizing s with
  | nil => rfl
  | cons e rest ih =>
    simp only [process_events, fuzzy_event_for_message_eq]
    rw [ih]
    rfl

lemma DisInv_apply_op {s : FuzzyState} (op : DriverOp) (h : DisInv s) :
    DisInv (apply_op s op) := by
  cases op with
  | ingest events =>
    intro n
    show (n, n) ∉ (process_events s events).1.dis_connect
    rw [process_events_dis_connect]
    exact h n
  | run_unit id event => exact DisInv_schedule id event h

lemma DisInv_run_ops {s : FuzzyState} (ops : List DriverOp) (h : DisInv s) :
    DisInv (run_ops s ops) := by
  induction ops generalizing s with
  | nil => exact h
  | cons op rest ih => exact ih (DisInv_apply_op op h)

/-- C10: after any sequence of driver operations from the fresh state (in
particular any sequence of `PartitionStart`/`PartitionRecovery` handling),
no pair `(n, n)` is in the disconnected set, a connectivity check from a
node to itself reports connected, and a self-addressed message's delivery
is never suppressed: `send` appends it to the transport output. -/
theorem self_pair_never_partitioned (ops : List DriverOp) (n : NID)
    (a : Nat) (p : String) :
    (n, n) ∉ (run_ops init ops).dis_connect ∧
    can_connect (run_ops init ops) n n = true ∧
    (send (run_ops init ops) a ⟨n, n, p⟩).1.sent =
      (run_ops init ops).sent ++ [⟨n, n, p⟩] := by
  have hinv := DisInv_run_ops ops DisInv_init
  have h1 := hinv n
  have hcc : can_connect (run_ops init ops) n n = true :=
    can_connect_eq_true.mpr h1
  refine ⟨h1, hcc, ?_⟩
  rw [send_eq_ok _ a _ hcc]

/-- C2: a delivery attempt (`FuzzyInner::send`) of message `m` under action
id `a`: if `(m.source, m.dest)` is disconnected, it returns with no
Delivery record appended and no transport send (only the connectivity
consult happens); otherwise exactly one Delivery record with the freshly
generated id, linked to `a`, is appended, and then exactly one transport
send of `m` is performed. -/
theorem send_delivery_semantics (s : FuzzyState) (a : Nat) (m : Message) :
    ((m.source, m.dest) ∈ s.dis_connect →
      send s a m = (s, [Step.check m false])) ∧
    ((m.source, m.dest) ∉ s.dis_connect →
      send s a m =
        ({ s with atomic_sequence := (s.atomic_sequence + 1) % U64
                  ids := s.ids ++ [s.atomic_sequence]
                  deliveries := s.deliveries ++ [(s.atomic_sequence, a)]
                  sent := s.sent ++ [m] },
         [Step.check m true,
          Step.append_delivery s.atomic_sequence a,
          Step.transport m])) := by
  constructor
  · intro h
    apply send_eq_blocked
    simp [can_connect, h]
  · intro h
    exact send_eq_ok s a m (can_connect_eq_true.mpr h)

/-- Witness for C2: a blocked attempt leaves the state untouched; an
unblocked one appends one Delivery row and one transport send. -/
theorem send_delivery_semantics_witness :
    send { init with dis_connect := {(1, 2)} } 7 ⟨1, 2, "x"⟩ =
      ({ init with dis_connect := {(1, 2)} }, [Step.check ⟨1, 2, "x"⟩ false]) ∧
    send init 7 ⟨1, 2, "x"⟩ =
      ({ init with
          atomic_sequence := (init.atomic_sequence + 1) % U64
          ids := init.ids ++ [init.atomic_sequence]
          deliveries := init.deliveries ++ [(init.atomic_sequence, 7)]
          sent := init.sent ++ [⟨1, 2, "x"⟩] },
       [Step.check ⟨1, 2, "x"⟩ true,
        Step.append_delivery init.atomic_sequence 7,
        Step.transport ⟨1, 2, "x"⟩]) :=
  ⟨(send_delivery_semantics { init with dis_connect := {(1, 2)} } 7 ⟨1, 2, "x"⟩).1
      (by decide),
   (send_delivery_semantics init 7 ⟨1, 2, "x"⟩).2 (by decide)⟩

/-- C4: executing the `PartitionStart(g1, g2)` unit and then completing the
`PartitionRecovery(_, g1, g2)` unit leaves every ordered pair `(i, j)` with
`i ∈ g1`, `j ∈ g2`, `i ≠ j` out of the disconnected set: the recovery
undoes the partition for all affected pairs, whatever the prior
connectivity set was. -/
theorem partition_recovery_restores (s : FuzzyState) (a1 a2 ms : Nat)
    (g1 g2 : List NID) (i j : NID)
    (hi : i ∈ g1) (hj : j ∈ g2) (hij : i ≠ j) :
    (i, j) ∉ ((schedule ((schedule s a1 (.PartitionStart g1 g2)).1) a2
        (.PartitionRecovery ms g1 g2)).1).dis_connect ∧
    can_connect ((schedule ((schedule s a1 (.PartitionStart g1 g2)).1) a2
        (.PartitionRecovery ms g1 g2)).1) i j = true := by
  have hred : ((schedule ((schedule s a1 (.PartitionStart g1 g2)).1) a2
      (.PartitionRecovery ms g1 g2)).1) =
      partition_end (partition_start s g1 g2) g1 g2 := rfl
  have hout : (i, j) ∉ (partition_end (partition_start s g1 g2) g1 g2).dis_connect := by
    rw [mem_partition_end]
    rintro ⟨_, hno⟩
    exact hno ⟨hi, hj⟩
  rw [hred]
  exact ⟨hout, can_connect_eq_true.mpr hout⟩

/-- Witness for C4 at `g1 = [1]`, `g2 = [2]`, starting from a state where
`(1, 2)` is already blocked. -/
theorem partition_recovery_restores_witness :
    (1, 2) ∉ ((schedule ((schedule { init with dis_connect := {(1, 2)} } 3
        (.PartitionStart [1] [2])).1) 4 (.PartitionRecovery 10 [1] [2])).1).dis_connect ∧
    can_connect ((schedule ((schedule { init with dis_connect := {(1, 2)} } 3
        (.PartitionStart [1] [2])).1) 4 (.PartitionRecovery 10 [1] [2])).1) 1 2 = true :=
  partition_recovery_restores { init with dis_connect := {(1, 2)} } 3 4 10 [1] [2] 1 2
    (by decide) (by decide) (by decide)

/-- C5: partition blocking is directional.  After `partition_start` blocks
`(a, b)` (with `a ∈ g1`, `b ∈ g2`, `a ≠ b`) and nothing has blocked
`(b, a)`, the pair `(a, b)` is disconnected, a connectivity check for
`(b, a)` reports connected, and a delivery attempt from `b` to `a` is not
suppressed: it appends its Delivery record and transports the message. -/
theorem partition_blocking_directional (s : FuzzyState) (g1 g2 : List NID)
    (a b : NID) (x : Nat) (m : Message)
    (ha : a ∈ g1) (hb : b ∈ g2) (hab : a ≠ b)
    (hrev : (b, a) ∉ s.dis_connect) (hno : ¬(b ∈ g1 ∧ a ∈ g2))
    (hms : m.source = b) (hmd : m.dest = a) :
    (a, b) ∈ (partition_start s g1 g2).dis_connect ∧
    can_connect (partition_start s g1 g2) b a = true ∧
    (send (partition_start s g1 g2) x m).1.sent =
      (partition_start s g1 g2).sent ++ [m] ∧
    (send (partition_start s g1 g2) x m).1.deliveries =
      (partition_start s g1 g2).deliveries ++
        [((partition_start s g1 g2).atomic_sequence, x)] := by
  have hmem : (a, b) ∈ (partition_start s g1 g2).dis_connect :=
    (mem_partition_start s g1 g2 (a, b)).mpr (Or.inr ⟨ha, hb, hab⟩)
  have hnot : (b, a) ∉ (partition_start s g1 g2).dis_connect := by
    rw [mem_partition_start]
    rintro (h | ⟨h1, h2, _⟩)
    · exact hrev h
    · exact hno ⟨h1, h2⟩
  have hcc : can_connect (partition_start s g1 g2) b a = true :=
    can_connect_eq_true.mpr hnot
  have hcc2 : can_connect (partition_start s g1 g2) m.source m.dest = true := by
    rw [hms, hmd]
    exact hcc
  refine ⟨hmem, hcc, ?_, ?_⟩ <;> rw [send_eq_ok _ x _ hcc2]

/-- Witness for C5: blocking `(1, 2)` leaves delivery from `2` to `1`
untouched. -/
theorem partition_blocking_directional_witness :
    (1, 2) ∈ (partition_start init [1] [2]).dis_connect ∧
    can_connect (partition_start init [1] [2]) 2 1 = true ∧
    (send (partition_start init [1] [2]) 9 ⟨2, 1, "y"⟩).1.sent =
      (partition_start init [1] [2]).sent ++ [⟨2, 1, "y"⟩] ∧
    (send (partition_start init [1] [2]) 9 ⟨2, 1, "y"⟩).1.deliveries =
      (partition_start init [1] [2]).deliveries ++
        [((partition_start init [1] [2]).atomic_sequence, 9)] :=
  partition_blocking_directional init [1] [2] 1 2 9 ⟨2, 1, "y"⟩
    (by decide) (by decide) (by decide) (by decide) (by decide) rfl rfl

/-- C9 counterexample: at `wait_ms = 0` the `Restart` arm still performs a
(zero-duration) suspension — `sleep(Duration::from_millis(ms))` is called
unconditionally — while the `Delay` arm skips the suspension entirely
(`if ms > 0`), so the two scheduling units do not execute identically. -/
theorem restart_delay_zero_counterexample :
    schedule init 5 (FuzzyEvent.Restart 0 ⟨1, 2, "x"⟩) ≠
    schedule init 5 (FuzzyEvent.Delay 0 ⟨1, 2, "x"⟩) := by decide

/-- C9 amended: for `wait_ms > 0`, `Restart(wait_ms, m)` executes exactly
like `Delay(wait_ms, m)` under the same action id; for every `wait_ms` the
two leave identical states (one delivery attempt of `m`); they differ only
in that `Restart` performs its suspension even when `wait_ms = 0`, where
`Delay` attempts delivery without suspending. -/
theorem restart_delay_equiv (s : FuzzyState) (a ms : Nat) (m : Message) :
    (0 < ms → schedule s a (.Restart ms m) = schedule s a (.Delay ms m)) ∧
    (schedule s a (.Restart ms m)).1 = (schedule s a (.Delay ms m)).1 ∧
    (schedule s a (.Restart ms m)).2 = Step.sleep ms :: (send s a m).2 ∧
    (schedule s a (.Delay 0 m)).2 = (send s a m).2 := by
  rcases hsend : send s a m with ⟨s1, tr⟩
  have hres : schedule s a (.Restart ms m) = (s1, Step.sleep ms :: tr) := by
    simp [schedule, hsend]
  have hdel : schedule s a (.Delay ms m) =
      (s1, (if 0 < ms then [Step.sleep ms] else []) ++ tr) := by
    simp [schedule, hsend]
  have hdel0 : schedule s a (.Delay 0 m) = (s1, tr) := by
    simp [schedule, hsend]
  refine ⟨?_, ?_, ?_, ?_⟩
  · intro h
    rw [hres, hdel, if_pos h]
    simp
  · rw [hres, hdel]
  · rw [hres]
  · rw [hdel0]


/-- Witness for C9's amended statement at `wait_ms = 3` and `wait_ms = 0`. -/
theorem restart_delay_equiv_witness :
    schedule init 5 (FuzzyEvent.Restart 3 ⟨1, 2, "x"⟩) =
      schedule init 5 (FuzzyEvent.Delay 3 ⟨1, 2, "x"⟩) ∧
    (schedule init 5 (FuzzyEvent.Restart 0 ⟨1, 2, "x"⟩)).1 =
      (schedule init 5 (FuzzyEvent.Delay 0 ⟨1, 2, "x"⟩)).1 :=
  ⟨(restart_delay_equiv init 5 3 ⟨1, 2, "x"⟩).1 (by decide),
   (restart_delay_equiv init 5 0 ⟨1, 2, "x"⟩).2.1⟩

/-! ### Trace analysis for C3 -/

/-- Project a step to its connectivity consult, if it is one. -/
def check_of : Step → Option (Message × Bool)
  | Step.check m ok => some (m, ok)
  | _ => none

/-- The delivery attempts (connectivity consults) of a trace, in order. -/
def checks (tr : List Step) : List (Message × Bool) := tr.filterMap check_of

/-- Total milliseconds slept along a trace. -/
def sleep_sum : List Step → Nat
  | [] => 0
  | Step.sleep ms :: rest => ms + sleep_sum rest
  | _ :: rest => sleep_sum rest

/-- Cumulative time (sleep total since unit start, offset by `t`) at which
each delivery attempt of a trace occurs. -/
def attempt_times_from (t : Nat) : List Step → List Nat
  | [] => []
  | Step.sleep ms :: rest => attempt_times_from (t + ms) rest
  | Step.check _ _ :: rest => t :: attempt_times_from t rest
  | _ :: rest => attempt_times_from t rest

/-- Cumulative time from unit start of each delivery attempt of a trace. -/
def attempt_times (tr : List Step) : List Nat := attempt_times_from 0 tr

lemma checks_append (l1 l2 : List Step) :
    checks (l1 ++ l2) = checks l1 ++ checks l2 :=
  List.filterMap_append l1 l2 check_of

lemma sleep_sum_append (l1 l2 : List Step) :
    sleep_sum (l1 ++ l2) = sleep_sum l1 + sleep_sum l2 := by
  induction l1 with
  | nil => simp [sleep_sum]
  | cons st rest ih => cases st <;> simp [sleep_sum, ih] <;> omega

lemma attempt_times_from_append (t : Nat) (l1 l2 : List Step) :
    attempt_times_from t (l1 ++ l2) =
      attempt_times_from t l1 ++ attempt_times_from (t + sleep_sum l1) l2 := by
  induction l1 generalizing t with
  | nil => simp [attempt_times_from, sleep_sum]
  | cons st rest ih =>
    cases st <;> simp [attempt_times_from, sleep_sum, ih] <;>
      rw [Nat.add_assoc]

lemma checks_send (s : FuzzyState) (a : Nat) (m : Message) :
    checks (send s a m).2 = [(m, can_connect s m.source m.dest)] := by
  by_cases h : can_connect s m.source m.dest = true
  · rw [send_eq_ok s a m h, h]
    rfl
  · rw [send_eq_blocked s a m (by simpa using h), Bool.eq_false_iff.mpr h]
    rfl

lemma sleep_sum_send (s : FuzzyState) (a : Nat) (m : Message) :
    sleep_sum (send s a m).2 = 0 := by
  by_cases h : can_connect s m.source m.dest = true
  · rw [send_eq_ok s a m h]
    rfl
  · rw [send_eq_blocked s a m (by simpa using h)]
    rfl

lemma attempt_times_from_send (t : Nat) (s : FuzzyState) (a : Nat) (m : Message) :
    attempt_times_from t (send s a m).2 = [t] := by
  by_cases h : can_connect s m.source m.dest = true
  · rw [send_eq_ok s a m h]
    rfl
  · rw [send_eq_blocked s a m (by simpa using h)]
    rfl

lemma duplicate_loop_checks (a : Nat) (m : Message) (vec : List Nat)
    (s : FuzzyState) :
    checks (duplicate_loop s a m vec).2 =
      List.replicate vec.length (m, can_connect s m.source m.dest) := by
  induction vec generalizing s with
  | nil => rfl
  | cons ms rest ih =>
    simp only [duplicate_loop, List.length_cons, List.replicate_succ]
    rw [show (Step.sleep ms :: (send s a m).2) ++ (duplicate_loop (send s a m).1 a m rest).2 =
        Step.sleep ms :: ((send s a m).2 ++ (duplicate_loop (send s a m).1 a m rest).2) by simp]
    show checks ((send s a m).2 ++ (duplicate_loop (send s a m).1 a m rest).2) = _
    rw [checks_append, checks_send, ih, send_can_connect]
    rfl

lemma duplicate_loop_times (a : Nat) (m : Message) (vec : List Nat)
    (s : FuzzyState) (t : Nat) :
    attempt_times_from t (duplicate_loop s a m vec).2 =
      (List.range vec.length).map (fun k => t + (vec.take (k + 1)).sum) := by
  induction vec generalizing s t with
  | nil => rfl
  | cons ms rest ih =>
    simp only [duplicate_loop]
    rw [show ((Step.sleep ms :: (send s a m).2) ++ (duplicate_loop (send s a m).1 a m rest).2 :
        List Step) =
        Step.sleep ms :: ((send s a m).2 ++ (duplicate_loop (send s a m).1 a m rest).2) by simp]
    show attempt_times_from t (Step.sleep ms :: _) = _
    rw [show attempt_times_from t (Step.sleep ms ::
          ((send s a m).2 ++ (duplicate_loop (send s a m).1 a m rest).2)) =
        attempt_times_from (t + ms)
          ((send s a m).2 ++ (duplicate_loop (send s a m).1 a m rest).2) from rfl]
    rw [attempt_times_from_append, attempt_times_from_send, sleep_sum_send,
      Nat.add_zero, ih]
    rw [List.length_cons, List.range_succ_eq_map, List.map_cons, List.map_map]
    simp only [Function.comp_def, Nat.succ_eq_add_one, List.take_succ_cons,
      List.sum_cons, List.take_zero, List.sum_nil, Nat.add_zero, Nat.add_assoc,
      List.singleton_append]

lemma duplicate_loop_deliveries_ok (a : Nat) (m : Message) (vec : List Nat)
    (s : FuzzyState) (h : can_connect s m.source m.dest = true)
    (hbound : s.atomic_sequence + vec.length ≤ U64) :
    (duplicate_loop s a m vec).1.deliveries =
      s.deliveries ++ (List.range vec.length).map
        (fun k => (s.atomic_sequence + k, a)) := by
  induction vec generalizing s with
  | nil => simp [duplicate_loop]
  | cons ms rest ih =>
    simp only [duplicate_loop]
    show (duplicate_loop (send s a m).1 a m rest).1.deliveries = _
    rcases List.eq_nil_or_concat rest with hrest | _
    · subst hrest
      simp only [duplicate_loop, send_eq_ok s a m h]
      simp [List.range_succ]
    · have hlt : s.atomic_sequence + 1 < U64 := by
        have : rest.length ≠ 0 := by
          rename_i hconc
          obtain ⟨l, e, rfl⟩ := hconc
          simp
        simp only [List.length_cons] at hbound
        omega
      have hsend1 : (send s a m).1.atomic_sequence = s.atomic_sequence + 1 := by
        rw [send_eq_ok s a m h]
        exact Nat.mod_eq_of_lt hlt
      have hcc1 : can_connect (send s a m).1 m.source m.dest = true := by
        rw [send_can_connect]
        exact h
      have hb1 : (send s a m).1.atomic_sequence + rest.length ≤ U64 := by
        rw [hsend1]
        simp only [List.length_cons] at hbound
        omega
      rw [ih (send s a m).1 hcc1 hb1, hsend1, send_eq_ok s a m h]
      simp only [List.length_cons, List.range_succ_eq_map, List.map_cons,
        List.map_map, List.append_assoc, List.singleton_append]
      congr 2
      apply List.map_congr_left
      intro k _
      simp only [Function.comp_apply]
      congr 1
      omega

lemma duplicate_loop_deliveries_blocked (a : Nat) (m : Message)
    (vec : List Nat) (s : FuzzyState)
    (h : can_connect s m.source m.dest = false) :
    (duplicate_loop s a m vec).1.deliveries = s.deliveries := by
  induction vec generalizing s with
  | nil => rfl
  | cons ms rest ih =>
    simp only [duplicate_loop]
    show (duplicate_loop (send s a m).1 a m rest).1.deliveries = _
    have hb : can_connect (send s a m).1 m.source m.dest = false := by
      rw [send_can_connect]
      exact h
    rw [ih (send s a m).1 hb, send_eq_blocked s a m h]

/-- C3: a `Duplicate([d1, …, dn], m)` scheduling unit performs exactly `n`
delivery attempts of `m`, in list order; the `k`-th attempt occurs after
the cumulative wait `d1 + … + dk` from unit start; when connectivity does
not block them, the attempts append Delivery records with distinct fresh
ids `c, c + 1, …` all linked to the unit's action id, and when it blocks
them no record is appended. -/
theorem duplicate_event_semantics (s : FuzzyState) (a : Nat) (m : Message)
    (vec : List Nat) (h : s.atomic_sequence + vec.length ≤ U64) :
    checks (schedule s a (.Duplicate vec m)).2 =
      List.replicate vec.length (m, can_connect s m.source m.dest) ∧
    attempt_times (schedule s a (.Duplicate vec m)).2 =
      (List.range vec.length).map (fun k => (vec.take (k + 1)).sum) ∧
    (can_connect s m.source m.dest = true →
      (schedule s a (.Duplicate vec m)).1.deliveries =
        s.deliveries ++ (List.range vec.length).map
          (fun k => (s.atomic_sequence + k, a)) ∧
      List.Pairwise (fun p q => p.1 ≠ q.1)
        ((List.range vec.length).map (fun k => (s.atomic_sequence + k, a)))) ∧
    (can_connect s m.source m.dest = false →
      (schedule s a (.Duplicate vec m)).1.deliveries = s.deliveries) := by
  have hsched : schedule s a (.Duplicate vec m) = duplicate_loop s a m vec := rfl
  rw [hsched]
  refine ⟨duplicate_loop_checks a m vec s, ?_, ?_,
    fun hb => duplicate_loop_deliveries_blocked a m vec s hb⟩
  · rw [attempt_times, duplicate_loop_times]
    simp
  · intro hc
    refine ⟨duplicate_loop_deliveries_ok a m vec s hc h, ?_⟩
    rw [List.pairwise_map]
    refine (List.pairwise_lt_range _).imp ?_
    intro k1 k2 hlt
    simp only [ne_eq]
    omega

/-- Witness for C3 at `Duplicate([1, 2], m)` from the fresh state: two
attempts at cumulative times 1 and 3, two Delivery rows with distinct ids
0 and 1 both linked to action id 5. -/
theorem duplicate_event_semantics_witness :
    checks (schedule init 5 (FuzzyEvent.Duplicate [1, 2] ⟨1, 2, "x"⟩)).2 =
      List.replicate 2 ((⟨1, 2, "x"⟩ : Message), true) ∧
    attempt_times (schedule init 5 (FuzzyEvent.Duplicate [1, 2] ⟨1, 2, "x"⟩)).2 =
      [1, 3] ∧
    (schedule init 5 (FuzzyEvent.Duplicate [1, 2] ⟨1, 2, "x"⟩)).1.deliveries =
      [(0, 5), (1, 5)] := by
  have h := duplicate_event_semantics init 5 ⟨1, 2, "x"⟩ [1, 2] (by decide)
  refine ⟨?_, ?_, ?_⟩
  · rw [h.1]
    decide
  · rw [h.2.1]
    decide
  · rw [(h.2.2.1 (by decide)).1]
    decide

/-! ### Ingestion ordering for C6/C7 -/

/-- The `(id, event)` rows allocated for an event list when the counter
starts at `c`: event `k` gets id `c + k`. -/
def alloc_rows (c : Nat) : List FuzzyEvent → List (Nat × FuzzyEvent)
  | [] => []
  | e :: rest => (c, e) :: alloc_rows (c + 1) rest

/-- The ingestion trace for a row list: for each event in order, its
Action append immediately followed by its unit spawn. -/
def ingest_trace : List (Nat × FuzzyEvent) → List Step
  | [] => []
  | r :: rest => Step.append_action r.1 r.2 :: Step.spawn_unit r.1 r.2 :: ingest_trace rest

/-- Steps ingestion itself may take: log appends and unit spawns, never a
unit's own sleeps, connectivity checks, delivery appends or transport
sends. -/
def is_ingest_step : Step → Bool
  | Step.append_action _ _ => true
  | Step.spawn_unit _ _ => true
  | _ => false

lemma alloc_rows_snd (c : Nat) (events : List FuzzyEvent) :
    (alloc_rows c events).map Prod.snd = events := by
  induction events generalizing c with
  | nil => rfl
  | cons e rest ih => simp [alloc_rows, ih]

lemma ingest_trace_all_ingest (rows : List (Nat × FuzzyEvent)) :
    (ingest_trace rows).all is_ingest_step = true := by
  induction rows with
  | nil => rfl
  | cons r rest ih => simp [ingest_trace, is_ingest_step, ih]


lemma process_events_seq (events : List FuzzyEvent) (s : FuzzyState)
    (h : s.atomic_sequence + events.length < U64) :
    (process_events s events).1.atomic_sequence =
      s.atomic_sequence + events.length := by
  induction events generalizing s with
  | nil => simp [process_events]
  | cons e rest ih =>
    have hred : process_events s (e :: rest) =
        ((process_events
          { s with atomic_sequence := (s.atomic_sequence + 1) % U64
                   ids := s.ids ++ [s.atomic_sequence]
                   actions := s.actions ++ [(s.atomic_sequence, e)]
                   pending := s.pending ++ [(s.atomic_sequence, e)] } rest).1,
         Step.append_action s.atomic_sequence e ::
           Step.spawn_unit s.atomic_sequence e ::
             (process_events
               { s with atomic_sequence := (s.atomic_sequence + 1) % U64
                        ids := s.ids ++ [s.atomic_sequence]
                        actions := s.actions ++ [(s.atomic_sequence, e)]
                        pending := s.pending ++ [(s.atomic_sequence, e)] } rest).2) := by
      simp [process_events, gen_id_eq, fuzzy_event_for_message_eq]
    have hlt : s.atomic_sequence + 1 < U64 := by
      simp only [List.length_cons] at h
      omega
    rw [hred]
    show (process_events _ rest).1.atomic_sequence = _
    rw [ih _ (by
      show (s.atomic_sequence + 1) % U64 + rest.length < U64
      rw [Nat.mod_eq_of_lt hlt]
      simp only [List.length_cons] at h
      omega)]
    show (s.atomic_sequence + 1) % U64 + rest.length = _
    rw [Nat.mod_eq_of_lt hlt, List.length_cons]
    omega

lemma process_events_spec (events : List FuzzyEvent) (s : FuzzyState)
    (h : s.atomic_sequence + events.length ≤ U64) :
    (process_events s events).1.actions =
      s.actions ++ alloc_rows s.atomic_sequence events ∧
    (process_events s events).1.pending =
      s.pending ++ alloc_rows s.atomic_sequence events ∧
    (process_events s events).2 =
      ingest_trace (alloc_rows s.atomic_sequence events) := by
  induction events generalizing s with
  | nil =>
    exact ⟨by simp [process_events, alloc_rows],
      by simp [process_events, alloc_rows],
      by simp [process_events, alloc_rows, ingest_trace]⟩
  | cons e rest ih =>
    have hred : process_events s (e :: rest) =
        ((process_events
          { s with atomic_sequence := (s.atomic_sequence + 1) % U64
                   ids := s.ids ++ [s.atomic_sequence]
                   actions := s.actions ++ [(s.atomic_sequence, e)]
                   pending := s.pending ++ [(s.atomic_sequence, e)] } rest).1,
         Step.append_action s.atomic_sequence e ::
           Step.spawn_unit s.atomic_sequence e ::
             (process_events
               { s with atomic_sequence := (s.atomic_sequence + 1) % U64
                        ids := s.ids ++ [s.atomic_sequence]
                        actions := s.actions ++ [(s.atomic_sequence, e)]
                        pending := s.pending ++ [(s.atomic_sequence, e)] } rest).2) := by
      simp [process_events, gen_id_eq, fuzzy_event_for_message_eq]
    by_cases hr : rest = []
    · subst hr
      rw [hred]
      exact ⟨by simp [process_events, alloc_rows],
        by simp [process_events, alloc_rows],
        by simp [process_events, alloc_rows, ingest_trace]⟩
    · have hlen : rest.length ≠ 0 := fun h0 => hr (List.length_eq_zero.mp h0)
      have hlt : s.atomic_sequence + 1 < U64 := by
        simp only [List.length_cons] at h
        omega
      rw [hred]
      obtain ⟨ha, hp, ht⟩ := ih
        { s with atomic_sequence := (s.atomic_sequence + 1) % U64
                 ids := s.ids ++ [s.atomic_sequence]
                 actions := s.actions ++ [(s.atomic_sequence, e)]
                 pending := s.pending ++ [(s.atomic_sequence, e)] }
        (by
          show (s.atomic_sequence + 1) % U64 + rest.length ≤ U64
          rw [Nat.mod_eq_of_lt hlt]
          simp only [List.length_cons] at h
          omega)
      refine ⟨?_, ?_, ?_⟩
      · show (process_events _ rest).1.actions = _
        rw [ha]
        show s.actions ++ [(s.atomic_sequence, e)] ++
            alloc_rows ((s.atomic_sequence + 1) % U64) rest = _
        rw [Nat.mod_eq_of_lt hlt, alloc_rows, List.append_assoc]
        rfl
      · show (process_events _ rest).1.pending = _
        rw [hp]
        show s.pending ++ [(s.atomic_sequence, e)] ++
            alloc_rows ((s.atomic_sequence + 1) % U64) rest = _
        rw [Nat.mod_eq_of_lt hlt, alloc_rows, List.append_assoc]
        rfl
      · show Step.append_action s.atomic_sequence e ::
            Step.spawn_unit s.atomic_sequence e :: (process_events _ rest).2 = _
        rw [ht]
        show _ = ingest_trace (alloc_rows s.atomic_sequence (e :: rest))
        rw [alloc_rows, ingest_trace, Nat.mod_eq_of_lt hlt]

lemma alloc_rows_append (c : Nat) (l1 l2 : List FuzzyEvent) :
    alloc_rows c (l1 ++ l2) = alloc_rows c l1 ++ alloc_rows (c + l1.length) l2 := by
  induction l1 generalizing c with
  | nil => simp [alloc_rows]
  | cons e rest ih =>
    show (c, e) :: alloc_rows (c + 1) (rest ++ l2) =
      (c, e) :: (alloc_rows (c + 1) rest ++ alloc_rows (c + (rest.length + 1)) l2)
    rw [ih, show c + (rest.length + 1) = c + 1 + rest.length by omega]

/-- C6: for one ingested command, every generated fault event gets its
Action record appended (rows in exactly production order, event `k` under
id `c + k`), the ingestion trace is, per event in order, the Action append
immediately followed by that event's unit spawn (so the record is durably
appended before the unit begins), the spawned units are handed off as
pending work, and the trace contains only ingestion steps — none of the
units' own sleeps, checks, delivery appends or transport sends. -/
theorem ingestion_logs_then_spawns {σ : Type}
    (gen : σ → Message → List FuzzyEvent × Bool × σ)
    (s : FuzzyState) (u : σ) (m : Message)
    (events : List FuzzyEvent) (cont : Bool) (u1 : σ)
    (hgen : gen u m = (events, cont, u1))
    (h : s.atomic_sequence + events.length ≤ U64) :
    (incoming_command gen s u (.MessageReq m)).1.actions =
      s.actions ++ alloc_rows s.atomic_sequence events ∧
    (alloc_rows s.atomic_sequence events).map Prod.snd = events ∧
    (incoming_command gen s u (.MessageReq m)).1.pending =
      s.pending ++ alloc_rows s.atomic_sequence events ∧
    (incoming_command gen s u (.MessageReq m)).2.2.1 =
      ingest_trace (alloc_rows s.atomic_sequence events) ∧
    ((incoming_command gen s u (.MessageReq m)).2.2.1).all is_ingest_step
      = true := by
  have hred : incoming_command gen s u (.MessageReq m) =
      ((process_events s events).1, u1, (process_events s events).2,
        if cont then Except.ok () else Except.error ET.EOF) := by
    simp [incoming_command, hgen]
  obtain ⟨ha, hp, ht⟩ := process_events_spec events s h
  rw [hred]
  exact ⟨ha, alloc_rows_snd s.atomic_sequence events, hp, ht,
    by rw [show ((process_events s events).1, u1, (process_events s events).2,
        if cont then Except.ok () else Except.error ET.EOF).2.2.1 =
        (process_events s events).2 from rfl, ht]
       exact ingest_trace_all_ingest _⟩

/-- Witness for C6: a command whose generator yields two events,
`Lost` then `Crash m`, logged under ids 0 and 1 in that order. -/
theorem ingestion_logs_then_spawns_witness :
    (incoming_command
      (fun (_ : Unit) (m : Message) => ([FuzzyEvent.Lost, FuzzyEvent.Crash m], true, ()))
      init () (FuzzyCommand.MessageReq ⟨1, 2, "x"⟩)).1.actions =
      init.actions ++ alloc_rows init.atomic_sequence
        [FuzzyEvent.Lost, FuzzyEvent.Crash ⟨1, 2, "x"⟩] ∧
    (alloc_rows init.atomic_sequence
        [FuzzyEvent.Lost, FuzzyEvent.Crash ⟨1, 2, "x"⟩]).map Prod.snd =
      [FuzzyEvent.Lost, FuzzyEvent.Crash ⟨1, 2, "x"⟩] ∧
    (incoming_command
      (fun (_ : Unit) (m : Message) => ([FuzzyEvent.Lost, FuzzyEvent.Crash m], true, ()))
      init () (FuzzyCommand.MessageReq ⟨1, 2, "x"⟩)).1.pending =
      init.pending ++ alloc_rows init.atomic_sequence
        [FuzzyEvent.Lost, FuzzyEvent.Crash ⟨1, 2, "x"⟩] ∧
    (incoming_command
      (fun (_ : Unit) (m : Message) => ([FuzzyEvent.Lost, FuzzyEvent.Crash m], true, ()))
      init () (FuzzyCommand.MessageReq ⟨1, 2, "x"⟩)).2.2.1 =
      ingest_trace (alloc_rows init.atomic_sequence
        [FuzzyEvent.Lost, FuzzyEvent.Crash ⟨1, 2, "x"⟩]) ∧
    ((incoming_command
      (fun (_ : Unit) (m : Message) => ([FuzzyEvent.Lost, FuzzyEvent.Crash m], true, ()))
      init () (FuzzyCommand.MessageReq ⟨1, 2, "x"⟩)).2.2.1).all is_ingest_step
      = true :=
  ingestion_logs_then_spawns
    (fun (_ : Unit) (m : Message) => ([FuzzyEvent.Lost, FuzzyEvent.Crash m], true, ()))
    init () ⟨1, 2, "x"⟩ [FuzzyEvent.Lost, FuzzyEvent.Crash ⟨1, 2, "x"⟩] true ()
    rfl (by decide)

/-- C7: when the decision generator declines to continue on the third
command, ingestion first processes every fault event of that command
(their Action rows are all appended) and only then raises `ET.EOF`; the
message loop stops there with exactly three receives — whatever commands
remain queued, no fourth receive is attempted — and surfaces the
distinguished end-of-input signal rather than a transport error. -/
theorem eof_clean_stop {σ : Type} (gen : σ → Message → List FuzzyEvent × Bool × σ)
    (s : FuzzyState) (u : σ) (m1 m2 m3 : Message) (rest : List FuzzyCommand)
    (evs1 evs2 evs3 : List FuzzyEvent) (u1 u2 u3 : σ)
    (h1 : gen u m1 = (evs1, true, u1)) (h2 : gen u1 m2 = (evs2, true, u2))
    (h3 : gen u2 m3 = (evs3, false, u3))
    (hb : s.atomic_sequence + (evs1.length + evs2.length + evs3.length) < U64) :
    message_loop gen s u
        (.MessageReq m1 :: .MessageReq m2 :: .MessageReq m3 :: rest) =
      ((process_events (process_events (process_events s evs1).1 evs2).1 evs3).1,
        3, Except.error ET.EOF) ∧
    (process_events (process_events (process_events s evs1).1 evs2).1 evs3).1.actions =
      s.actions ++ alloc_rows s.atomic_sequence (evs1 ++ evs2 ++ evs3) := by
  have e1 : incoming_command gen s u (.MessageReq m1) =
      ((process_events s evs1).1, u1, (process_events s evs1).2, Except.ok ()) := by
    simp [incoming_command, h1]
  have e2 : incoming_command gen (process_events s evs1).1 u1 (.MessageReq m2) =
      ((process_events (process_events s evs1).1 evs2).1, u2,
        (process_events (process_events s evs1).1 evs2).2, Except.ok ()) := by
    simp [incoming_command, h2]
  have e3 : incoming_command gen (process_events (process_events s evs1).1 evs2).1 u2
      (.MessageReq m3) =
      ((process_events (process_events (process_events s evs1).1 evs2).1 evs3).1, u3,
        (process_events (process_events (process_events s evs1).1 evs2).1 evs3).2,
        Except.error ET.EOF) := by
    simp [incoming_command, h3]
  constructor
  · simp only [message_loop, e1, e2, e3]
  · have q1 := process_events_seq evs1 s (by omega)
    have a1 := (process_events_spec evs1 s (by omega)).1
    have q2 := process_events_seq evs2 (process_events s evs1).1 (by rw [q1]; omega)
    have a2 := (process_events_spec evs2 (process_events s evs1).1
      (by rw [q1]; omega)).1
    have a3 := (process_events_spec evs3
      (process_events (process_events s evs1).1 evs2).1 (by rw [q2, q1]; omega)).1
    rw [a3, a2, a1, q2, q1, alloc_rows_append, alloc_rows_append]
    simp [List.length_append, List.append_assoc, Nat.add_assoc]

/-- Witness for C7: a counting generator continues on commands 1 and 2 and
declines on command 3; the loop performs exactly 3 receives and stops with
`ET.EOF` although a fourth command is queued. -/
theorem eof_clean_stop_witness :
    message_loop (fun (n : Nat) (_ : Message) => ([FuzzyEvent.Lost], decide (n < 2), n + 1))
        init 0
        (FuzzyCommand.MessageReq ⟨1, 2, "a"⟩ :: FuzzyCommand.MessageReq ⟨1, 2, "b"⟩ ::
          FuzzyCommand.MessageReq ⟨1, 2, "c"⟩ :: [FuzzyCommand.MessageReq ⟨1, 2, "d"⟩]) =
      ((process_events (process_events (process_events init [FuzzyEvent.Lost]).1
          [FuzzyEvent.Lost]).1 [FuzzyEvent.Lost]).1, 3, Except.error ET.EOF) ∧
    (process_events (process_events (process_events init [FuzzyEvent.Lost]).1
        [FuzzyEvent.Lost]).1 [FuzzyEvent.Lost]).1.actions =
      init.actions ++ alloc_rows init.atomic_sequence
        ([FuzzyEvent.Lost] ++ [FuzzyEvent.Lost] ++ [FuzzyEvent.Lost]) :=
  eof_clean_stop (fun (n : Nat) (_ : Message) => ([FuzzyEvent.Lost], decide (n < 2), n + 1))
    init 0 ⟨1, 2, "a"⟩ ⟨1, 2, "b"⟩ ⟨1, 2, "c"⟩ [FuzzyCommand.MessageReq ⟨1, 2, "d"⟩]
    [FuzzyEvent.Lost] [FuzzyEvent.Lost] [FuzzyEvent.Lost] 1 2 3
    rfl rfl rfl (by decide)

/-- C8: an append of an Action or Delivery record whose sqlite
open/transaction/execute/commit chain fails is never silently swallowed:
the `.unwrap()` chain aborts the calling operation, surfacing the failure
instead of a success value — no spawn and no transport send happen after
it — and every successful return really carries the appended record, so
execution never continues with a missing one. -/
theorem persist_failure_escalates (s : FuzzyState) (id : Nat)
    (ev : FuzzyEvent) (m : Message) :
    (fuzzy_event_for_message_db false s id ev =
      Except.error PersistError.writeFailed) ∧
    (∀ s1 tr, fuzzy_event_for_message_db true s id ev = Except.ok (s1, tr) →
      s1.actions = s.actions ++ [(id, ev)]) ∧
    (can_connect s m.source m.dest = true →
      send_db false s id m = Except.error PersistError.writeFailed) ∧
    (can_connect s m.source m.dest = true →
      ∀ s1 tr, send_db true s id m = Except.ok (s1, tr) →
        s1.deliveries = s.deliveries ++ [(s.atomic_sequence, id)] ∧
        s1.sent = s.sent ++ [m]) := by
  refine ⟨rfl, ?_, ?_, ?_⟩
  · intro s1 tr h
    have hx : fuzzy_event_for_message_db true s id ev =
        Except.ok ({ s with actions := s.actions ++ [(id, ev)]
                            pending := s.pending ++ [(id, ev)] },
          [Step.append_action id ev, Step.spawn_unit id ev]) := rfl
    rw [hx] at h
    injection h with h1
    injection h1 with hs htr
    rw [← hs]
  · intro hc
    simp only [send_db, hc, Bool.not_true, Bool.false_eq_true, if_false,
      store_message_delivery_db, if_false]
    rfl
  · intro hc s1 tr h
    have hx : send_db true s id m =
        Except.ok ({ s with atomic_sequence := (s.atomic_sequence + 1) % U64
                            ids := s.ids ++ [s.atomic_sequence]
                            deliveries := s.deliveries ++ [(s.atomic_sequence, id)]
                            sent := s.sent ++ [m] },
          [Step.check m true, Step.append_delivery s.atomic_sequence id,
           Step.transport m]) := by
      simp only [send_db, hc, Bool.not_true, Bool.false_eq_true, if_false,
        store_message_delivery_db, if_true, store_message_delivery_eq, gen_id_eq]
      rfl
    rw [hx] at h
    injection h with h1
    injection h1 with hs htr
    rw [← hs]
    exact ⟨rfl, rfl⟩

/-- Witness for C8 at a concrete state and message. -/
theorem persist_failure_escalates_witness :
    fuzzy_event_for_message_db false init 3 FuzzyEvent.Lost =
      Except.error PersistError.writeFailed ∧
    (∀ s1 tr, fuzzy_event_for_message_db true init 3 FuzzyEvent.Lost =
        Except.ok (s1, tr) → s1.actions = init.actions ++ [(3, FuzzyEvent.Lost)]) ∧
    send_db false init 3 ⟨1, 2, "x"⟩ = Except.error PersistError.writeFailed ∧
    (∀ s1 tr, send_db true init 3 ⟨1, 2, "x"⟩ = Except.ok (s1, tr) →
        s1.deliveries = init.deliveries ++ [(init.atomic_sequence, 3)] ∧
        s1.sent = init.sent ++ [⟨1, 2, "x"⟩]) := by
  have h := persist_failure_escalates init 3 FuzzyEvent.Lost ⟨1, 2, "x"⟩
  exact ⟨h.1, h.2.1, h.2.2.1 (by decide), h.2.2.2 (by decide)⟩
